import Mathlib

/-!
# Verification of the article image scraper pipeline

Shallow embedding of the candidate-extraction, scoring, filtering,
deduplication/selection, validation and normalization logic of
`image_scraper_pipeline.py`, together with theorems settling the spec
claims about it.

Strings from the Python source are modelled as Lean `String`s; the
case-insensitive substring tests of the source are modelled by mapping
`Char.toLower` over the character list (which agrees with Python's
`str.lower()` on ASCII data, the only data the pipeline's pattern
tables contain).
-/

/-- Lowercase a string character by character (Python `str.lower()` on ASCII). -/
def lowerChars (s : String) : List Char :=
  s.toList.map Char.toLower

/-- `pat` occurs as a contiguous substring at position `i` of `s`
(Python `s[i:].startswith(pat)`). -/
def litAt (pat s : List Char) (i : Nat) : Bool :=
  pat.isPrefixOf (s.drop i)

/-- `pat` occurs somewhere in `s` (Python `pat in s`). -/
def litIn (pat s : List Char) : Bool :=
  (List.range (s.length + 1)).any (litAt pat s)

/-- Some string of `pats` occurs in `s`
(Python `any(p in s for p in pats)`). -/
def anyLitIn (pats : List String) (s : List Char) : Bool :=
  pats.any (fun p => litIn p.toList s)

/-- The gap matched by `.*` in `re.search` may not contain a newline. -/
def noNewline (m : List Char) : Bool :=
  !(m.contains '\n')

/-- Search for the regex `a.*b` with `a` and `b` literal: an occurrence of
`a` followed, after a newline-free gap, by an occurrence of `b`. -/
def litThenLit (a b s : List Char) : Bool :=
  (List.range (s.length + 1)).any (fun i =>
    litAt a s i &&
    (List.range (s.length + 1)).any (fun j =>
      decide (i + a.length ≤ j) && litAt b s j &&
      noNewline ((s.drop (i + a.length)).take (j - (i + a.length)))))

/-- After the leading digit of a `\d+x\d+` token: consume further digits,
then require `x` followed by a digit. -/
def dxdTail : List Char → Bool
  | [] => false
  | c :: rest =>
    if c.isDigit then dxdTail rest
    else c == 'x' && (match rest with | d :: _ => d.isDigit | [] => false)

/-- The regex token `\d+x\d+` matches starting at position `j` of `s`. -/
def dxdAt (s : List Char) (j : Nat) : Bool :=
  match s.drop j with
  | [] => false
  | c :: rest => c.isDigit && dxdTail rest

/-- Minimal end position (exclusive) of a `\d+x\d+` match whose digit run
started earlier; `k` is the current absolute position. -/
def dxdEndFrom : List Char → Nat → Option Nat
  | [], _ => none
  | c :: rest, k =>
    if c.isDigit then dxdEndFrom rest (k + 1)
    else if c == 'x' then
      match rest with
      | d :: _ => if d.isDigit then some (k + 2) else none
      | [] => none
    else none

/-- Minimal end position (exclusive) of a `\d+x\d+` match starting at `j`. -/
def dxdEndAt (s : List Char) (j : Nat) : Option Nat :=
  match s.drop j with
  | c :: rest => if c.isDigit then dxdEndFrom rest (j + 1) else none
  | [] => none

/-- Search for the regex `a.*\d+x\d+` with `a` literal. -/
def litThenDxd (a s : List Char) : Bool :=
  (List.range (s.length + 1)).any (fun i =>
    litAt a s i &&
    (List.range (s.length + 1)).any (fun j =>
      decide (i + a.length ≤ j) && dxdAt s j &&
      noNewline ((s.drop (i + a.length)).take (j - (i + a.length)))))

/-- Search for the regex `\d+x\d+.*b` with `b` literal.  A match exists iff
some minimal `\d+x\d+` match ends at `e` and `b` occurs at some `t ≥ e`
with a newline-free gap (trailing digits absorbed by `.*` are never
newlines, so using the minimal end loses no matches). -/
def dxdThenLit (b s : List Char) : Bool :=
  (List.range (s.length + 1)).any (fun j =>
    match dxdEndAt s j with
    | none => false
    | some e =>
      (List.range (s.length + 1)).any (fun t =>
        decide (e ≤ t) && litAt b s t &&
        noNewline ((s.drop e).take (t - e))))

/-- The `exclude_regex` of the source: `re.search` with `re.IGNORECASE`
over the union of `self.exclude_patterns` (pipeline constructor).
The literal alternatives are searched in the lowercased string;
`ad[_-]` expands to the two literals `ad_` and `ad-`; the three
`thumb`/`\d+x\d+` patterns use the sequential matchers above. -/
def excludeRegexSearch (s : String) : Bool :=
  let l := lowerChars s
  anyLitIn ["logo", "icon", "favicon", "avatar", "profile",
            "advertisement", "banner", "widget",
            "social", "share", "button", "arrow", "play",
            "facebook.com/tr", "google-analytics", "googletagmanager",
            "doubleclick", "googlesyndication", "adsystem",
            "pixel?", "track?", "beacon?", "analytics",
            "1x1.gif", "transparent.gif", "spacer.gif"] l
  || litIn "ad_".toList l || litIn "ad-".toList l
  || litThenLit "thumbnail".toList "small".toList l
  || litThenDxd "thumb".toList l
  || dxdThenLit "thumb".toList l

/-- Result of `urllib.parse.urlparse` restricted to the components the
pipeline reads (scheme, netloc, path, query). -/
structure UrlParts where
  scheme : List Char
  netloc : List Char
  path : List Char
  query : List Char

/-- Characters allowed inside a URL scheme. -/
def isSchemeChar (c : Char) : Bool :=
  c.isAlpha || c.isDigit || c == '+' || c == '-' || c == '.'

/-- Split off a leading `scheme:` when every character before the first
colon is a scheme character; `acc` holds the scheme read so far, reversed. -/
def schemeSplitAux : List Char → List Char → Option (List Char × List Char)
  | _, [] => none
  | acc, c :: rest =>
    if c == ':' then (if acc.isEmpty then none else some (acc.reverse, rest))
    else if isSchemeChar c then schemeSplitAux (c :: acc) rest
    else none

/-- Model of `urllib.parse.urlparse` for the URL shapes the pipeline
handles: an optional `scheme:`, an optional `//netloc` delimited by
`/`, `?` or `#`, then the path up to `?` or `#`, then the query up to
`#` (fragment and params splitting are not needed by the source). -/
def urlparseModel (u : String) : UrlParts :=
  let l := u.toList
  let sr : List Char × List Char :=
    match l.head? with
    | some c =>
      if c.isAlpha then
        match schemeSplitAux [] l with
        | some (s, r) => (s, r)
        | none => ([], l)
      else ([], l)
    | none => ([], l)
  let rest := sr.2
  let nr : List Char × List Char :=
    if "//".toList.isPrefixOf rest then
      let r := rest.drop 2
      (r.takeWhile (fun c => !(c == '/' || c == '?' || c == '#')),
       r.dropWhile (fun c => !(c == '/' || c == '?' || c == '#')))
    else ([], rest)
  let path := nr.2.takeWhile (fun c => !(c == '?' || c == '#'))
  let afterPath := nr.2.dropWhile (fun c => !(c == '?' || c == '#'))
  let query :=
    match afterPath with
    | '?' :: q => q.takeWhile (fun c => !(c == '#'))
    | _ => []
  ⟨sr.1, nr.1, path, query⟩

/-- `pathlib.Path(path).suffix`: the final extension of the last path
component — `name[i:]` for `i = name.rfind('.')` when `0 < i < len(name)-1`,
otherwise the empty string. -/
def pathSuffix (path : List Char) : List Char :=
  let name := (path.reverse.takeWhile (fun c => !(c == '/'))).reverse
  match name.reverse.findIdx? (fun c => c == '.') with
  | none => []
  | some k =>
    let i := name.length - 1 - k
    if 0 < i ∧ i < name.length - 1 then name.drop i else []

/-- `tracking_domains` table of `_should_exclude_image_url`. -/
def trackingDomains : List String :=
  ["facebook.com", "google-analytics.com", "googletagmanager.com",
   "doubleclick.net", "googlesyndication.com", "googleadservices.com",
   "outbrain.com", "taboola.com", "amazon-adsystem.com"]

/-- `tracking_patterns` table of `_should_exclude_image_url`. -/
def trackingUrlPatterns : List String :=
  ["facebook.com/tr", "google-analytics.com", "/pixel?", "/track?",
   "/beacon?", "/analytics?", "googletagmanager.com"]

/-- `valid_extensions` table local to `_should_exclude_image_url`. -/
def validExtensions : List String :=
  [".jpg", ".jpeg", ".png", ".webp", ".gif", ".bmp", ".svg"]

/-- `image_cdns` table local to `_should_exclude_image_url`. -/
def imageCdns : List String :=
  ["static.toiimg.com", "images.", "img.", "cdn.", "assets."]

/-- `_should_exclude_image_url`: regex patterns, tracking domains and URL
patterns, tracking query parameters, 1x1-pixel markers, then the
extension/CDN requirement, in source order. -/
def shouldExcludeImageUrl (img_url : String) : Bool :=
  if excludeRegexSearch img_url then true
  else
    let parsed := urlparseModel img_url
    let netlocLower := parsed.netloc.map Char.toLower
    let urlLower := lowerChars img_url
    let queryLower := parsed.query.map Char.toLower
    if trackingDomains.any (fun d => litIn d.toList netlocLower) then true
    else if trackingUrlPatterns.any (fun p => litIn p.toList urlLower) then true
    else if ["fbclid", "gclid", "utm_", "pixel"].any
        (fun p => litIn p.toList queryLower) then true
    else if litIn "width=1".toList img_url.toList
        || litIn "height=1".toList img_url.toList
        || litIn "1x1".toList img_url.toList then true
    else
      let pathExt := (pathSuffix parsed.path).map Char.toLower
      let isImageCdn := imageCdns.any (fun c => litIn c.toList netlocLower)
      if pathExt.isEmpty && !isImageCdn then true
      else if !pathExt.isEmpty
          && !(validExtensions.any (fun e => e.toList == pathExt)) then true
      else false

/-- Observable attributes of an ancestor element of an `img` tag:
`parent.get('class', [])` and `parent.get('id', '')`. -/
structure Anc where
  classes : List String
  id : String

/-- Observable attributes of a BeautifulSoup `img` element, as read by
`score_image_relevance` and `analyze_image_context`: `get('alt', '')`,
`get('class', [])`, the chain of parent elements (nearest first), and —
abstracting the `find_parent(['figure','div'])`/`find(['figcaption',
'caption','div'])` walk, whose result the source only measures — the
length of the text of the caption element found that way, when both the
figure/div ancestor and a caption inside it exist. -/
structure ImgTag where
  alt : String
  classes : List String
  ancestors : List Anc
  figureCaptionLen : Option Nat

/-- The class/id search string of one ancestor in `analyze_image_context`:
`' '.join(parent.get('class', [])).lower() + parent.get('id', '').lower()`
(classes joined with spaces, id concatenated directly). -/
def ancSearchChars (a : Anc) : List Char :=
  lowerChars (String.intercalate " " a.classes) ++ lowerChars a.id

/-- The ancestor walk of `analyze_image_context`: up to 3 levels up, the
first ancestor matching a positive indicator adds 15 and stops, the first
matching a negative indicator subtracts 10 and stops. -/
def walkAncestors : List Anc → Nat → Int
  | _, 0 => 0
  | [], _ => 0
  | a :: rest, Nat.succ k =>
    let s := ancSearchChars a
    if anyLitIn ["article", "content", "story", "body", "post", "main",
                 "entry"] s then 15
    else if anyLitIn ["header", "nav", "footer", "sidebar", "menu", "ad",
                      "widget"] s then -10
    else walkAncestors rest k

/-- `analyze_image_context`: the ancestor walk plus 10 for a substantial
(longer than 10 characters) figure caption, floored at 0.  The
`article_content` parameter and the `surrounding_text` variable of the
source are never used by its computation. -/
def analyzeImageContext (img_tag : Option ImgTag) (_article_content : String) : Int :=
  match img_tag with
  | none => 0
  | some t =>
    let ctx := walkAncestors t.ancestors 3
    let ctx := ctx + (match t.figureCaptionLen with
      | some n => if n > 10 then 10 else 0
      | none => 0)
    max 0 ctx

/-- The source-method prior of `score_image_relevance` (the `if`/`elif`
chain on `source_method`); any other method, including `opengraph`,
`twitter_card` and `schema`, gets no prior. -/
def methodPrior (source_method : String) : Int :=
  if source_method = "trafilatura_main" then 30
  else if source_method = "newspaper_top" then 25
  else if source_method = "trafilatura" then 15
  else if source_method = "newspaper" then 10
  else if source_method = "soup" then 5
  else 0

/-- `logo_indicators` table of `score_image_relevance`. -/
def logoIndicators : List String :=
  ["logo", "brand", "header", "masthead", "watermark",
   "signature", "emblem", "badge", "seal", "mark"]

/-- The URL-based signals of `score_image_relevance`, summed in source
order over the lowercased URL. -/
def urlSignalScore (img_url : String) : Int :=
  let urlLower := lowerChars img_url
  (if anyLitIn ["featured", "main", "hero", "cover", "article"] urlLower
    then 20 else 0)
  + (if anyLitIn ["large", "big", "full", "original"] urlLower then 12 else 0)
  + (if litIn "wp-content/uploads".toList urlLower then 10 else 0)
  + (if anyLitIn ["photo", "image", "pic", "img"] urlLower then 8 else 0)
  - (if anyLitIn logoIndicators urlLower then 25 else 0)
  - (if anyLitIn ["toi", "timesofindia", "company", "corp"] urlLower
    then 15 else 0)
  - (if litIn "facebook.com/tr".toList urlLower
      || litIn "/tr?".toList urlLower then 50 else 0)
  - (if anyLitIn ["analytics", "tracking", "pixel?", "beacon?"] urlLower
    then 40 else 0)
  - (if anyLitIn ["thumb", "small", "mini", "icon"] urlLower then 15 else 0)
  - (if anyLitIn ["ad", "banner", "widget", "sidebar"] urlLower then 20 else 0)
  - (if anyLitIn ["social", "share", "profile", "avatar"] urlLower
    then 10 else 0)
  - (if anyLitIn ["150x", "200x", "100x", "50x"] urlLower then 12 else 0)
  - (if anyLitIn ["x150", "x200", "x100", "x50"] urlLower then 12 else 0)

/-- The HTML-tag signals of `score_image_relevance` (`if img_tag:` block):
alt text, CSS classes, and the immediate parent's classes. -/
def tagSignalScore (img_tag : Option ImgTag) : Int :=
  match img_tag with
  | none => 0
  | some t =>
    let altLower := lowerChars t.alt
    let classesLower := lowerChars (String.intercalate " " t.classes)
    (if !altLower.isEmpty then
      (if anyLitIn ["article", "story", "news", "main", "photo"] altLower
        then 10 else 0)
      + (if anyLitIn ["logo", "icon", "button", "arrow"] altLower
        then -15 else 0)
    else 0)
    + (if litIn "featured".toList classesLower
        || litIn "hero".toList classesLower
        || litIn "main".toList classesLower then 15 else 0)
    + (if anyLitIn ["sidebar", "widget", "ad", "banner"] classesLower
      then -20 else 0)
    + (match t.ancestors.head? with
      | none => 0
      | some p =>
        let parentClasses := lowerChars (String.intercalate " " p.classes)
        (if litIn "article".toList parentClasses
            || litIn "content".toList parentClasses then 10 else 0)
        + (if litIn "sidebar".toList parentClasses
            || litIn "footer".toList parentClasses then -15 else 0))

/-- The context contribution: `if img_tag: score += analyze_image_context(...)`. -/
def contextScore (img_tag : Option ImgTag) (article_content : String) : Int :=
  match img_tag with
  | none => 0
  | some _ => analyzeImageContext img_tag article_content

/-- The file-extension preference of `score_image_relevance`
(`endswith` chain on the lowercased URL). -/
def extensionScore (img_url : String) : Int :=
  let urlLower := lowerChars img_url
  if ".jpg".toList.isSuffixOf urlLower || ".jpeg".toList.isSuffixOf urlLower
    then 5
  else if ".png".toList.isSuffixOf urlLower then 2
  else if ".gif".toList.isSuffixOf urlLower then -5
  else 0

/-- The signal sum of `score_image_relevance` before the final clamp:
base 50, method prior, URL signals, tag signals, context, extension.
(The `parsed_url = urlparse(img_url)` local of the source is never read.) -/
def scoreRaw (img_url : String) (img_tag : Option ImgTag)
    (source_method : String) (article_content : String) : Int :=
  50 + methodPrior source_method + urlSignalScore img_url
    + tagSignalScore img_tag + contextScore img_tag article_content
    + extensionScore img_url

/-- `score_image_relevance`: the summed signals clamped into [0, 100]
by `max(0, min(100, score))`. -/
def scoreImageRelevance (img_url : String) (img_tag : Option ImgTag)
    (source_method : String) (article_content : String) : Int :=
  max 0 (min 100 (scoreRaw img_url img_tag source_method article_content))


/-- An image candidate as built by the extractors: the dictionary
`{'url': ..., 'score': ..., 'source': ...}`. -/
structure Candidate where
  url : String
  score : Int
  source : String
deriving DecidableEq

/-- Model of `urllib.parse.urljoin(base, ref)` for the reference shapes the
pipeline produces: an absolute reference (with scheme) is returned as is;
a protocol-relative `//...` reference gets the base's scheme; a
root-relative `/...` reference gets the base's scheme and netloc; an
empty reference yields the base; any other reference is resolved against
the directory of the base's path (`..` segments are not normalized —
no claim evaluates such a reference). -/
def urljoinModel (base ref : String) : String :=
  let rl := ref.toList
  let hasScheme :=
    match rl.head? with
    | some c => c.isAlpha && (schemeSplitAux [] rl).isSome
    | none => false
  if hasScheme then ref
  else
    let p := urlparseModel base
    if "//".toList.isPrefixOf rl then
      String.mk (p.scheme ++ [':'] ++ rl)
    else if rl.isEmpty then base
    else if rl.head? == some '/' then
      String.mk (p.scheme ++ "://".toList ++ p.netloc ++ rl)
    else
      let dir := (p.path.reverse.dropWhile (fun c => !(c == '/'))).reverse
      let dir := if dir.isEmpty then ['/'] else dir
      String.mk (p.scheme ++ "://".toList ++ p.netloc ++ dir ++ rl)

/-- The OpenGraph branch of `extract_opengraph_images`: resolve the meta
tag content against the page URL, drop it if the URL filter excludes it,
otherwise store the clamped relevance score plus the fixed +25 bonus. -/
def ogCandidate (url content : String) : List Candidate :=
  let img_url := urljoinModel url content
  if shouldExcludeImageUrl img_url then []
  else [⟨img_url, scoreImageRelevance img_url none "opengraph" "" + 25,
        "opengraph"⟩]

/-- The Twitter-card branch of `extract_opengraph_images` (+20 bonus). -/
def twitterCandidate (url content : String) : List Candidate :=
  let img_url := urljoinModel url content
  if shouldExcludeImageUrl img_url then []
  else [⟨img_url, scoreImageRelevance img_url none "twitter_card" "" + 20,
        "twitter_card"⟩]

/-- The schema.org branch of `extract_opengraph_images` for one string
image value recovered from a `ld+json` script (+22 bonus). -/
def schemaCandidate (url content : String) : List Candidate :=
  let img_url := urljoinModel url content
  if shouldExcludeImageUrl img_url then []
  else [⟨img_url, scoreImageRelevance img_url none "schema" "" + 22,
        "schema"⟩]

/-- The data `extract_opengraph_images` reads out of the parsed page: the
`og:image` and `twitter:image` meta contents when the tag is present with
a `content` attribute (`none` otherwise), and the string image values
recovered from the `application/ld+json` scripts after the source's
list/dict unwrapping, in document order. -/
structure MetaSoup where
  ogContent : Option String
  twitterContent : Option String
  schemaImages : List String

/-- Guard for an optional meta content: absent tags and empty contents
produce nothing (Python truthiness of `og_image.get('content')`). -/
def optPart (f : String → List Candidate) : Option String → List Candidate
  | some c => if c = "" then [] else f c
  | none => []

/-- `extract_opengraph_images`: the OpenGraph, Twitter-card and schema.org
candidates appended in source order. -/
def extractOpengraphImages (soup : MetaSoup) (url : String) : List Candidate :=
  optPart (ogCandidate url) soup.ogContent
  ++ optPart (twitterCandidate url) soup.twitterContent
  ++ soup.schemaImages.flatMap (fun s => schemaCandidate url s)

/-- One step of the URL-deduplication loop of `scrape_article_images`:
`if img_url not in seen_urls or img['score'] > seen_urls[img_url]['score']:
seen_urls[img_url] = img`, on the insertion-ordered association list that
models the `seen_urls` dict. -/
def insertCand (c : Candidate) : List Candidate → List Candidate
  | [] => [c]
  | x :: xs =>
    if x.url = c.url then
      (if x.score < c.score then c :: xs else x :: xs)
    else x :: insertCand c xs

/-- The merge-by-URL step of `scrape_article_images`
(`unique_images = list(seen_urls.values())`). -/
def mergeByUrl (l : List Candidate) : List Candidate :=
  l.foldl (fun acc c => insertCand c acc) []

/-- Insert into a descending-by-score list, placing the new candidate
after all strictly higher scores and before equal ones; folding this
from the right is Python's stable `sort(key=score, reverse=True)`. -/
def insertDesc (c : Candidate) : List Candidate → List Candidate
  | [] => [c]
  | x :: xs =>
    if c.score < x.score then x :: insertDesc c xs else c :: x :: xs

/-- `unique_images.sort(key=lambda x: x['score'], reverse=True)`:
stable descending sort by score. -/
def sortDesc (l : List Candidate) : List Candidate :=
  l.foldr insertDesc []

/-- `MIN_ACCEPTABLE_SCORE = 40`. -/
def MIN_ACCEPTABLE_SCORE : Int := 40

/-- The selection walk of `scrape_article_images`: the first candidate of
the sorted list meeting the score floor and passing size validation
(`val` is the `validate_image_size` oracle, a pure predicate on the URL);
`none` when the walk falls off the end. -/
def selectFirst (val : String → Bool) : List Candidate → Option Candidate
  | [] => none
  | c :: cs =>
    if MIN_ACCEPTABLE_SCORE ≤ c.score ∧ val c.url = true then some c
    else selectFirst val cs

/-- Merge, sort, walk: the selection tail of `scrape_article_images`
applied to the concatenated extractor output. -/
def scrapeSelect (val : String → Bool) (all_images : List Candidate) :
    Option Candidate :=
  selectFirst val (sortDesc (mergeByUrl all_images))

/-- `max([img['score'] for img in all_images], default=0)`. -/
def bestScore : List Candidate → Int
  | [] => 0
  | c :: cs => cs.foldl (fun m x => max m x.score) c.score

/-- Which strategies the fallback chain of `scrape_article_images` ran,
and the concatenated candidate list it accumulated. -/
structure ChainTrace where
  images : List Candidate
  ranNewspaper : Bool
  ranSoup : Bool

/-- The fallback chain of `scrape_article_images` over the results the
three strategies would produce: trafilatura always contributes;
newspaper3k only when the best score so far is below 80; BeautifulSoup
only when the best score is still below 70. -/
def chainRun (traf news soup : List Candidate) : ChainTrace :=
  let all1 := traf
  let all2 := if bestScore all1 < 80 then all1 ++ news else all1
  let all3 := if bestScore all2 < 70 then all2 ++ soup else all2
  ⟨all3, decide (bestScore all1 < 80), decide (bestScore all2 < 70)⟩

/-- `scrape_article_images` end to end on the three strategy results:
`None` for an empty candidate list, otherwise merge, sort and walk. -/
def scrapeArticleImages (traf news soup : List Candidate)
    (val : String → Bool) : Option Candidate :=
  let all_images := (chainRun traf news soup).images
  if all_images.isEmpty then none
  else scrapeSelect val all_images

/-- `max_file_size_mb = 10` expressed in bytes: `int(content_length) /
(1024 * 1024) > 10` holds exactly when the byte count exceeds
10 * 1024 * 1024 (the float division is exact across this threshold). -/
def maxFileSizeBytes : Nat := 10 * 1024 * 1024

/-- Outcome of the HEAD probe of `validate_image_size`: `fail` covers a
network error or an unparsable `content-length` (both raise into the
outer `except`), `ok` carries the parsed `content-length` when present. -/
inductive HeadResult where
  | fail
  | ok (contentLength : Option Nat)
deriving DecidableEq

/-- Outcome of the streamed GET plus `Image.open` of the first ~10KB:
`fail` is a network error, `ok none` means the partial bytes could not be
decoded into dimensions, `ok (some (w, h))` are the decoded dimensions. -/
inductive GetResult where
  | fail
  | ok (dims : Option (Nat × Nat))
deriving DecidableEq

/-- The dimension half of `validate_image_size`: reject decoded
dimensions under 100x100 (`min_image_size`), accept a failing GET or an
undecodable prefix. -/
def validateDims : GetResult → Bool
  | .fail => true
  | .ok none => true
  | .ok (some (w, ht)) => if w < 100 ∨ ht < 100 then false else true

/-- `validate_image_size`: reject on a content-length over 10 MB,
otherwise fall through to the dimension check; a failing HEAD (or an
unparsable header) accepts. -/
def validateImageSize (h : HeadResult) (g : GetResult) : Bool :=
  match h with
  | .fail => true
  | .ok cl =>
    match cl with
    | some n => if maxFileSizeBytes < n then false else validateDims g
    | none => validateDims g

/-- PIL's `MULDIV255(a, b, tmp)` rounding primitive:
`tmp = a*b + 128; ((tmp >> 8) + tmp) >> 8`. -/
def muldiv255 (a b : Nat) : Nat :=
  let t := a * b + 128
  (t / 256 + t) / 256

/-- PIL's `BLEND(mask, in1, in2)` used by `Image.paste` with a mask:
the background weighted by `255 - mask` plus the source weighted by
`mask`. -/
def pilBlend (mask bg src : Nat) : Nat :=
  muldiv255 bg (255 - mask) + muldiv255 src mask

/-- One RGBA pixel of a decoded image (alpha 255 = opaque). -/
structure RGBAPixel where
  r : Nat
  g : Nat
  b : Nat
  a : Nat

/-- A decoded PIL image: its `mode` string and the RGBA view of each
pixel (for mode `P` the view after the source's `convert('RGBA')`
palette lookup, for `LA` the luma replicated into r, g, b; modes without
an alpha channel carry `a = 255`). -/
structure DecodedImage where
  mode : String
  px : Nat → Nat → RGBAPixel

/-- The re-encoding step of `download_image`: modes RGBA, LA and P are
pasted onto an opaque white `Image.new('RGB', size, (255, 255, 255))`
background with the alpha band as mask; every other mode is the direct
RGB view (`convert('RGB')` for non-RGB modes changes color space only). -/
def normalizePx (img : DecodedImage) (x y : Nat) : Nat × Nat × Nat :=
  let p := img.px x y
  if img.mode = "RGBA" ∨ img.mode = "LA" ∨ img.mode = "P" then
    (pilBlend p.a 255 p.r, pilBlend p.a 255 p.g, pilBlend p.a 255 p.b)
  else (p.r, p.g, p.b)


/-- Membership after one dedup step: every element of the result was in
the list or is the inserted candidate. -/
theorem mem_insertCand {c x : Candidate} :
    ∀ {l : List Candidate}, x ∈ insertCand c l → x ∈ l ∨ x = c := by
  intro l
  induction l with
  | nil =>
    intro h
    simp only [insertCand, List.mem_singleton] at h
    exact Or.inr h
  | cons a xs ih =>
    intro h
    simp only [insertCand] at h
    by_cases hu : a.url = c.url
    · rw [if_pos hu] at h
      by_cases hs : a.score < c.score
      · rw [if_pos hs] at h
        rcases List.mem_cons.mp h with h1 | h2
        · exact Or.inr h1
        · exact Or.inl (List.mem_cons_of_mem _ h2)
      · rw [if_neg hs] at h
        exact Or.inl h
    · rw [if_neg hu] at h
      rcases List.mem_cons.mp h with h1 | h2
      · exact Or.inl (h1 ▸ List.mem_cons_self _ _)
      · rcases ih h2 with h3 | h4
        · exact Or.inl (List.mem_cons_of_mem _ h3)
        · exact Or.inr h4

/-- The URLs after one dedup step: unchanged when the inserted URL was
already present, appended otherwise. -/
theorem urls_insertCand (c : Candidate) :
    ∀ (l : List Candidate),
      (insertCand c l).map Candidate.url =
        if c.url ∈ l.map Candidate.url then l.map Candidate.url
        else l.map Candidate.url ++ [c.url] := by
  intro l
  induction l with
  | nil => simp [insertCand]
  | cons a xs ih =>
    simp only [insertCand]
    by_cases hu : a.url = c.url
    · rw [if_pos hu]
      by_cases hs : a.score < c.score
      · rw [if_pos hs]
        simp [hu]
      · rw [if_neg hs]
        simp [hu]
    · rw [if_neg hu]
      by_cases hm : c.url ∈ xs.map Candidate.url
      · simp only [List.map_cons, ih, if_pos hm]
        rw [if_pos]
        exact List.mem_cons_of_mem _ hm
      · simp only [List.map_cons, ih, if_neg hm]
        rw [if_neg]
        · rfl
        · intro hcon
          rcases List.mem_cons.mp hcon with h1 | h2
          · exact hu h1.symm
          · exact hm h2

/-- One dedup step preserves distinctness of the stored URLs. -/
theorem nodup_urls_insertCand {c : Candidate} {l : List Candidate}
    (h : (l.map Candidate.url).Nodup) :
    ((insertCand c l).map Candidate.url).Nodup := by
  rw [urls_insertCand]
  split
  · exact h
  · rename_i hnm
    simp only [List.nodup_append, List.nodup_singleton]
    exact ⟨h, trivial, by simpa [List.Disjoint] using hnm⟩

/-- One dedup step keeps, for each URL already present, an entry with at
least the old score. -/
theorem insertCand_score_mono {x : Candidate} (c : Candidate) :
    ∀ {l : List Candidate}, x ∈ l →
      ∃ y ∈ insertCand c l, y.url = x.url ∧ x.score ≤ y.score := by
  intro l
  induction l with
  | nil => intro h; cases h
  | cons a xs ih =>
    intro hx
    simp only [insertCand]
    rcases List.mem_cons.mp hx with hxa | hx'
    · by_cases hu : a.url = c.url
      · rw [if_pos hu]
        by_cases hs : a.score < c.score
        · rw [if_pos hs]
          refine ⟨c, List.mem_cons_self _ _, ?_, ?_⟩
          · rw [hxa, hu]
          · rw [hxa]; exact le_of_lt hs
        · rw [if_neg hs]
          refine ⟨a, List.mem_cons_self _ _, ?_, ?_⟩
          · rw [hxa]
          · rw [hxa]
      · rw [if_neg hu]
        refine ⟨a, List.mem_cons_self _ _, ?_, ?_⟩
        · rw [hxa]
        · rw [hxa]
    · by_cases hu : a.url = c.url
      · rw [if_pos hu]
        by_cases hs : a.score < c.score
        · rw [if_pos hs]
          exact ⟨x, List.mem_cons_of_mem _ hx', rfl, le_refl _⟩
        · rw [if_neg hs]
          exact ⟨x, List.mem_cons_of_mem _ hx', rfl, le_refl _⟩
      · rw [if_neg hu]
        obtain ⟨y, hy, hyu, hys⟩ := ih hx'
        exact ⟨y, List.mem_cons_of_mem _ hy, hyu, hys⟩

/-- One dedup step leaves an entry for the inserted URL scoring at least
the inserted score. -/
theorem insertCand_self (c : Candidate) :
    ∀ (l : List Candidate),
      ∃ y ∈ insertCand c l, y.url = c.url ∧ c.score ≤ y.score := by
  intro l
  induction l with
  | nil => exact ⟨c, List.mem_singleton.mpr rfl, rfl, le_refl _⟩
  | cons a xs ih =>
    simp only [insertCand]
    by_cases hu : a.url = c.url
    · rw [if_pos hu]
      by_cases hs : a.score < c.score
      · rw [if_pos hs]
        exact ⟨c, List.mem_cons_self _ _, rfl, le_refl _⟩
      · rw [if_neg hs]
        exact ⟨a, List.mem_cons_self _ _, hu, le_of_not_lt hs⟩
    · rw [if_neg hu]
      obtain ⟨y, hy, hyu, hys⟩ := ih
      exact ⟨y, List.mem_cons_of_mem _ hy, hyu, hys⟩

/-- Through the whole dedup fold, per-URL scores never decrease. -/
theorem foldl_insert_mono :
    ∀ (l acc : List Candidate) (x : Candidate), x ∈ acc →
      ∃ y ∈ l.foldl (fun a c => insertCand c a) acc,
        y.url = x.url ∧ x.score ≤ y.score := by
  intro l
  induction l with
  | nil => intro acc x hx; exact ⟨x, hx, rfl, le_refl _⟩
  | cons c rest ih =>
    intro acc x hx
    obtain ⟨y1, hy1, hu1, hs1⟩ := insertCand_score_mono c hx
    obtain ⟨y, hy, hu, hs⟩ := ih (insertCand c acc) y1 hy1
    exact ⟨y, hy, hu.trans hu1, hs1.trans hs⟩

/-- Every processed candidate ends up dominated by the fold's entry for
its URL. -/
theorem foldl_insert_covers {c0 : Candidate} :
    ∀ (l acc : List Candidate), c0 ∈ l →
      ∃ y ∈ l.foldl (fun a c => insertCand c a) acc,
        y.url = c0.url ∧ c0.score ≤ y.score := by
  intro l
  induction l with
  | nil => intro acc h; cases h
  | cons c rest ih =>
    intro acc hc0
    rcases List.mem_cons.mp hc0 with rfl | hc0'
    · obtain ⟨y1, hy1, hu1, hs1⟩ := insertCand_self c0 acc
      obtain ⟨y, hy, hu, hs⟩ :=
        foldl_insert_mono rest (insertCand c0 acc) y1 hy1
      exact ⟨y, hy, hu.trans hu1, hs1.trans hs⟩
    · exact ih (insertCand c acc) hc0'

/-- Elements of the dedup fold come from the accumulator or the input. -/
theorem foldl_insert_mem {x : Candidate} :
    ∀ (l acc : List Candidate),
      x ∈ l.foldl (fun a c => insertCand c a) acc → x ∈ acc ∨ x ∈ l := by
  intro l
  induction l with
  | nil => intro acc h; exact Or.inl h
  | cons c rest ih =>
    intro acc h
    rcases ih (insertCand c acc) h with h1 | h2
    · rcases mem_insertCand h1 with h3 | h4
      · exact Or.inl h3
      · exact Or.inr (h4 ▸ List.mem_cons_self _ _)
    · exact Or.inr (List.mem_cons_of_mem _ h2)

/-- The dedup fold preserves distinctness of the stored URLs. -/
theorem foldl_insert_nodup :
    ∀ (l acc : List Candidate), (acc.map Candidate.url).Nodup →
      ((l.foldl (fun a c => insertCand c a) acc).map Candidate.url).Nodup := by
  intro l
  induction l with
  | nil => intro acc h; exact h
  | cons c rest ih =>
    intro acc h
    exact ih (insertCand c acc) (nodup_urls_insertCand h)

/-- The URLs surviving the dedup fold are those of the accumulator plus
those of the input. -/
theorem foldl_insert_urls {u : String} :
    ∀ (l acc : List Candidate),
      (u ∈ (l.foldl (fun a c => insertCand c a) acc).map Candidate.url ↔
        u ∈ acc.map Candidate.url ∨ u ∈ l.map Candidate.url) := by
  intro l
  induction l with
  | nil => intro acc; simp
  | cons c rest ih =>
    intro acc
    rw [List.foldl_cons, ih (insertCand c acc)]
    rw [urls_insertCand]
    by_cases hm : c.url ∈ acc.map Candidate.url
    · rw [if_pos hm]
      constructor
      · rintro (h | h)
        · exact Or.inl h
        · exact Or.inr (List.mem_cons_of_mem _ h)
      · rintro (h | h)
        · exact Or.inl h
        · rcases List.mem_cons.mp h with rfl | h2
          · exact Or.inl hm
          · exact Or.inr h2
    · rw [if_neg hm]
      simp only [List.mem_append, List.mem_singleton, List.map_cons,
        List.mem_cons]
      tauto

/-- In a list with distinct URLs, candidates are determined by their URL. -/
theorem eq_of_mem_same_url :
    ∀ {L : List Candidate}, (L.map Candidate.url).Nodup →
      ∀ {x y : Candidate}, x ∈ L → y ∈ L → x.url = y.url → x = y := by
  intro L
  induction L with
  | nil => intro _ x y hx; cases hx
  | cons a t ih =>
    intro h x y hx hy hu
    simp only [List.map_cons, List.nodup_cons] at h
    rcases List.mem_cons.mp hx with rfl | hx' <;>
      rcases List.mem_cons.mp hy with rfl | hy'
    · rfl
    · exact absurd (hu ▸ List.mem_map_of_mem Candidate.url hy') h.1
    · exact absurd (hu ▸ List.mem_map_of_mem Candidate.url hx') h.1
    · exact ih h.2 hx' hy' hu

/-- The merged set has distinct URLs. -/
theorem mergeByUrl_nodup (l : List Candidate) :
    ((mergeByUrl l).map Candidate.url).Nodup :=
  foldl_insert_nodup l [] List.nodup_nil

/-- Every merged entry is one of the input candidates. -/
theorem mergeByUrl_subset {x : Candidate} {l : List Candidate}
    (h : x ∈ mergeByUrl l) : x ∈ l := by
  rcases foldl_insert_mem l [] h with h1 | h2
  · cases h1
  · exact h2

/-- A URL appears in the merged set exactly when it appears in the input. -/
theorem mergeByUrl_urls (l : List Candidate) (u : String) :
    u ∈ (mergeByUrl l).map Candidate.url ↔ u ∈ l.map Candidate.url := by
  rw [show mergeByUrl l = l.foldl (fun a c => insertCand c a) [] from rfl,
    foldl_insert_urls]
  simp

/-- The merged entry for a URL dominates every input score at that URL. -/
theorem mergeByUrl_max {x c2 : Candidate} {l : List Candidate}
    (hx : x ∈ mergeByUrl l) (hc2 : c2 ∈ l) (hu : c2.url = x.url) :
    c2.score ≤ x.score := by
  obtain ⟨y, hy, hyu, hys⟩ := foldl_insert_covers l [] hc2
  have hxy : x = y :=
    eq_of_mem_same_url (mergeByUrl_nodup l) hx hy (hu ▸ hyu.symm)
  exact hxy ▸ hys

/-- Inserting a candidate whose URL is already represented with at least
its score changes nothing (the dict comparison is strict). -/
theorem insertCand_eq_self {c x : Candidate} :
    ∀ {l : List Candidate}, (l.map Candidate.url).Nodup → x ∈ l →
      x.url = c.url → c.score ≤ x.score → insertCand c l = l := by
  intro l
  induction l with
  | nil => intro _ hx; cases hx
  | cons a t ih =>
    intro hnd hx hxu hs
    simp only [List.map_cons, List.nodup_cons] at hnd
    simp only [insertCand]
    by_cases hu : a.url = c.url
    · rw [if_pos hu]
      have hax : x = a := by
        rcases List.mem_cons.mp hx with rfl | hx'
        · rfl
        · exact absurd ((hxu.trans hu.symm) ▸ List.mem_map_of_mem
            Candidate.url hx') hnd.1
      rw [if_neg]
      exact not_lt.mpr (hax ▸ hs)
    · rw [if_neg hu]
      have hx' : x ∈ t := by
        rcases List.mem_cons.mp hx with rfl | hx'
        · exact absurd hxu hu
        · exact hx'
      rw [ih hnd.2 hx' hxu hs]

/-- Membership in an insertion into the sorted list. -/
theorem mem_insertDesc {c x : Candidate} :
    ∀ {l : List Candidate}, x ∈ insertDesc c l ↔ x = c ∨ x ∈ l := by
  intro l
  induction l with
  | nil => simp [insertDesc]
  | cons a t ih =>
    simp only [insertDesc]
    by_cases hlt : c.score < a.score
    · rw [if_pos hlt]
      rw [List.mem_cons, ih, List.mem_cons]
      tauto
    · rw [if_neg hlt]
      rw [List.mem_cons]

/-- The sort is a permutation at the level of membership. -/
theorem mem_sortDesc {x : Candidate} :
    ∀ {l : List Candidate}, x ∈ sortDesc l ↔ x ∈ l := by
  intro l
  induction l with
  | nil => simp [sortDesc]
  | cons a t ih =>
    show x ∈ insertDesc a (sortDesc t) ↔ _
    rw [mem_insertDesc, ih, List.mem_cons]

/-- Inserting into a descending list keeps it descending. -/
theorem pairwise_insertDesc {c : Candidate} :
    ∀ {l : List Candidate},
      l.Pairwise (fun a b => b.score ≤ a.score) →
      (insertDesc c l).Pairwise (fun a b => b.score ≤ a.score) := by
  intro l
  induction l with
  | nil => intro _; simp [insertDesc]
  | cons a t ih =>
    intro h
    rw [List.pairwise_cons] at h
    simp only [insertDesc]
    by_cases hlt : c.score < a.score
    · rw [if_pos hlt]
      rw [List.pairwise_cons]
      constructor
      · intro y hy
        rcases mem_insertDesc.mp hy with rfl | hy'
        · exact le_of_lt hlt
        · exact h.1 y hy'
      · exact ih h.2
    · rw [if_neg hlt]
      push_neg at hlt
      rw [List.pairwise_cons]
      refine ⟨?_, List.pairwise_cons.mpr h⟩
      intro y hy
      rcases List.mem_cons.mp hy with rfl | hy'
      · exact hlt
      · exact (h.1 y hy').trans hlt

/-- The output of the stable sort is descending by score. -/
theorem sortDesc_pairwise (l : List Candidate) :
    (sortDesc l).Pairwise (fun a b => b.score ≤ a.score) := by
  induction l with
  | nil => simp [sortDesc]
  | cons a t ih => exact pairwise_insertDesc ih

/-- Filtering one score class through an insertion: the insertion lands
in front of the equal scores exactly when it belongs to the class. -/
theorem filter_insertDesc (c : Candidate) (s : Int) :
    ∀ (l : List Candidate),
      (insertDesc c l).filter (fun y => y.score == s) =
        if c.score == s then c :: l.filter (fun y => y.score == s)
        else l.filter (fun y => y.score == s) := by
  intro l
  induction l with
  | nil =>
    simp only [insertDesc, List.filter_cons, List.filter_nil]
  | cons a t ih =>
    simp only [insertDesc]
    by_cases hlt : c.score < a.score
    · rw [if_pos hlt]
      by_cases hc : c.score = s
      · have ha : ¬(a.score = s) := by omega
        simp only [List.filter_cons, ih]
        simp [hc, ha]
      · simp only [List.filter_cons, ih]
        simp [hc]
    · rw [if_neg hlt]
      by_cases hc : c.score = s
      · simp [List.filter_cons, hc]
      · simp [List.filter_cons, hc]

/-- Stability of the sort: each score class keeps its first-seen order
(the filtered subsequences agree). -/
theorem sortDesc_filter (s : Int) :
    ∀ (l : List Candidate),
      (sortDesc l).filter (fun y => y.score == s) =
        l.filter (fun y => y.score == s) := by
  intro l
  induction l with
  | nil => rfl
  | cons a t ih =>
    show (insertDesc a (sortDesc t)).filter _ = _
    rw [filter_insertDesc, ih]
    by_cases hc : a.score = s
    · simp [List.filter_cons, hc]
    · simp [List.filter_cons, hc]

/-- A successful selection walk: the chosen candidate passes both gates
and everything ranked before it fails one of them. -/
theorem selectFirst_eq_some {val : String → Bool} {c : Candidate} :
    ∀ {L : List Candidate}, selectFirst val L = some c →
      (MIN_ACCEPTABLE_SCORE ≤ c.score ∧ val c.url = true) ∧
      ∃ pre post, L = pre ++ c :: post ∧
        ∀ x ∈ pre, ¬(MIN_ACCEPTABLE_SCORE ≤ x.score ∧ val x.url = true) := by
  intro L
  induction L with
  | nil => intro h; cases h
  | cons a t ih =>
    intro h
    simp only [selectFirst] at h
    by_cases hp : MIN_ACCEPTABLE_SCORE ≤ a.score ∧ val a.url = true
    · rw [if_pos hp] at h
      cases h
      exact ⟨hp, [], t, rfl, by intro x hx; cases hx⟩
    · rw [if_neg hp] at h
      obtain ⟨hc, pre, post, hL, hpre⟩ := ih h
      refine ⟨hc, a :: pre, post, by rw [hL]; rfl, ?_⟩
      intro x hx
      rcases List.mem_cons.mp hx with rfl | hx'
      · exact hp
      · exact hpre x hx'

/-- A selection walk over candidates that all fail a gate returns `none`. -/
theorem selectFirst_eq_none {val : String → Bool} :
    ∀ {L : List Candidate},
      (∀ x ∈ L, ¬(MIN_ACCEPTABLE_SCORE ≤ x.score ∧ val x.url = true)) →
      selectFirst val L = none := by
  intro L
  induction L with
  | nil => intro _; rfl
  | cons a t ih =>
    intro h
    simp only [selectFirst]
    rw [if_neg (h a (List.mem_cons_self _ _))]
    exact ih (fun x hx => h x (List.mem_cons_of_mem _ hx))

/-- The initial value bounds a `foldl` of `max` from below. -/
theorem le_foldl_max :
    ∀ (l : List Candidate) (a : Int),
      a ≤ l.foldl (fun m x => max m x.score) a := by
  intro l
  induction l with
  | nil => intro a; exact le_refl a
  | cons x xs ih =>
    intro a
    exact (le_max_left a x.score).trans (ih (max a x.score))

/-- Appending candidates cannot lower the best score of a nonempty list. -/
theorem bestScore_le_append (c : Candidate) (cs n : List Candidate) :
    bestScore (c :: cs) ≤ bestScore ((c :: cs) ++ n) := by
  show _ ≤ (cs ++ n).foldl (fun m x => max m x.score) c.score
  rw [List.foldl_append]
  exact le_foldl_max n _

/-- The scorer's clamp: every relevance score lies in [0, 100]. -/
theorem scoreImageRelevance_bounds (u : String) (t : Option ImgTag)
    (m a : String) :
    0 ≤ scoreImageRelevance u t m a ∧ scoreImageRelevance u t m a ≤ 100 := by
  unfold scoreImageRelevance
  exact ⟨le_max_left 0 _, max_le (by norm_num) (min_le_left _ _)⟩

/-- An OpenGraph candidate, when produced, is the joined URL with the
clamped base score plus 25. -/
theorem mem_ogCandidate {url content : String} {c : Candidate}
    (h : c ∈ ogCandidate url content) :
    c = ⟨urljoinModel url content,
      scoreImageRelevance (urljoinModel url content) none "opengraph" "" + 25,
      "opengraph"⟩ := by
  simp only [ogCandidate] at h
  split at h
  · cases h
  · exact List.mem_singleton.mp h

/-- A Twitter-card candidate, when produced, is the joined URL with the
clamped base score plus 20. -/
theorem mem_twitterCandidate {url content : String} {c : Candidate}
    (h : c ∈ twitterCandidate url content) :
    c = ⟨urljoinModel url content,
      scoreImageRelevance (urljoinModel url content) none "twitter_card" ""
        + 20,
      "twitter_card"⟩ := by
  simp only [twitterCandidate] at h
  split at h
  · cases h
  · exact List.mem_singleton.mp h

/-- A schema.org candidate, when produced, is the joined URL with the
clamped base score plus 22. -/
theorem mem_schemaCandidate {url content : String} {c : Candidate}
    (h : c ∈ schemaCandidate url content) :
    c = ⟨urljoinModel url content,
      scoreImageRelevance (urljoinModel url content) none "schema" "" + 22,
      "schema"⟩ := by
  simp only [schemaCandidate] at h
  split at h
  · cases h
  · exact List.mem_singleton.mp h

/-- A candidate produced under the truthiness guard comes from the
guarded branch at some content string. -/
theorem mem_optPart {f : String → List Candidate} {o : Option String}
    {c : Candidate} (h : c ∈ optPart f o) : ∃ s, c ∈ f s := by
  cases o with
  | none => cases h
  | some s =>
    simp only [optPart] at h
    by_cases hs : s = ""
    · rw [if_pos hs] at h
      cases h
    · rw [if_neg hs] at h
      exact ⟨s, h⟩

/-- Every candidate of `extract_opengraph_images` comes from one of its
three branches. -/
theorem mem_extractOpengraphImages {soup : MetaSoup} {url : String}
    {c : Candidate} (h : c ∈ extractOpengraphImages soup url) :
    (∃ s, c ∈ ogCandidate url s) ∨ (∃ s, c ∈ twitterCandidate url s) ∨
      (∃ s, c ∈ schemaCandidate url s) := by
  simp only [extractOpengraphImages, List.append_assoc, List.mem_append] at h
  rcases h with h | h | h
  · exact Or.inl (mem_optPart h)
  · exact Or.inr (Or.inl (mem_optPart h))
  · refine Or.inr (Or.inr ?_)
    rw [List.mem_flatMap] at h
    obtain ⟨s, _, hc⟩ := h
    exact ⟨s, hc⟩

/-- Pasting with a fully transparent mask keeps the white background:
`BLEND(0, 255, src) = 255`. -/
theorem pilBlend_zero_mask (src : Nat) : pilBlend 0 255 src = 255 := by
  simp [pilBlend, muldiv255]

/-- C1 (corrected).  The scoring function itself always returns a value
clamped into [0, 100]; but the candidates stored by
`extract_opengraph_images` carry that clamped base *plus* the fixed
+25/+20/+22 bonus, so their stored scores lie in [0, 125] — not [0, 100]
as the claim states (see the counterexample reaching 120). -/
theorem C1_clamp_and_bonus_range :
    (∀ (u : String) (t : Option ImgTag) (m a : String),
      0 ≤ scoreImageRelevance u t m a ∧ scoreImageRelevance u t m a ≤ 100) ∧
    (∀ (soup : MetaSoup) (url : String) (c : Candidate),
      c ∈ extractOpengraphImages soup url →
      0 ≤ c.score ∧ c.score ≤ 125) := by
  constructor
  · exact scoreImageRelevance_bounds
  · intro soup url c h
    rcases mem_extractOpengraphImages h with ⟨s, hc⟩ | ⟨s, hc⟩ | ⟨s, hc⟩
    · rw [mem_ogCandidate hc]
      obtain ⟨h1, h2⟩ :=
        scoreImageRelevance_bounds (urljoinModel url s) none "opengraph" ""
      dsimp only
      omega
    · rw [mem_twitterCandidate hc]
      obtain ⟨h1, h2⟩ :=
        scoreImageRelevance_bounds (urljoinModel url s) none "twitter_card" ""
      dsimp only
      omega
    · rw [mem_schemaCandidate hc]
      obtain ⟨h1, h2⟩ :=
        scoreImageRelevance_bounds (urljoinModel url s) none "schema" ""
      dsimp only
      omega

/-- Witness for C1 at a concrete page: the OpenGraph candidate for
`https://x.com/a.jpg` has score 80, inside [0, 125]. -/
theorem C1_clamp_and_bonus_range_witness :
    0 ≤ (Candidate.mk "https://x.com/a.jpg" 80 "opengraph").score ∧
      (Candidate.mk "https://x.com/a.jpg" 80 "opengraph").score ≤ 125 :=
  C1_clamp_and_bonus_range.2 ⟨some "https://x.com/a.jpg", none, []⟩
    "https://p.com/q" (Candidate.mk "https://x.com/a.jpg" 80 "opengraph")
    (by decide)

/-- C1 counterexample: for the OpenGraph image
`https://cdn.example.com/featured-large-photo.jpg` the extraction stores
the clamped base 95 plus the +25 bonus, i.e. score 120 — outside
[0, 100], refuting the claimed invariant for stored candidates. -/
theorem C1_stored_score_exceeds_100 :
    extractOpengraphImages
        ⟨some "https://cdn.example.com/featured-large-photo.jpg", none, []⟩
        "https://news.example.com/story" =
      [⟨"https://cdn.example.com/featured-large-photo.jpg", 120,
        "opengraph"⟩] ∧
    ¬(∀ c ∈ extractOpengraphImages
        ⟨some "https://cdn.example.com/featured-large-photo.jpg", none, []⟩
        "https://news.example.com/story", c.score ≤ 100) := by
  constructor
  · decide
  · decide

/-- C2 (corrected).  The bonuses are applied exactly once, but by the
extractor, not the Scorer: for the meta-tag source methods the scoring
function returns exactly the unrecognized-method score (its `elif` chain
gives them no prior), and `extract_opengraph_images` stores that clamped
base plus the fixed +25/+20/+22 at insertion time. -/
theorem C2_bonus_applied_once_in_extractor :
    (∀ (u : String) (t : Option ImgTag) (a : String),
      scoreImageRelevance u t "opengraph" a =
        scoreImageRelevance u t "unrecognized" a ∧
      scoreImageRelevance u t "twitter_card" a =
        scoreImageRelevance u t "unrecognized" a ∧
      scoreImageRelevance u t "schema" a =
        scoreImageRelevance u t "unrecognized" a) ∧
    (∀ (soup : MetaSoup) (url : String) (c : Candidate),
      c ∈ extractOpengraphImages soup url →
      (c.source = "opengraph" →
        c.score = scoreImageRelevance c.url none "opengraph" "" + 25) ∧
      (c.source = "twitter_card" →
        c.score = scoreImageRelevance c.url none "twitter_card" "" + 20) ∧
      (c.source = "schema" →
        c.score = scoreImageRelevance c.url none "schema" "" + 22)) := by
  constructor
  · intro u t a
    exact ⟨rfl, rfl, rfl⟩
  · intro soup url c h
    rcases mem_extractOpengraphImages h with ⟨s, hc⟩ | ⟨s, hc⟩ | ⟨s, hc⟩
    · rw [mem_ogCandidate hc]
      exact ⟨fun _ => rfl,
        fun hs2 => absurd hs2 (show ¬("opengraph" = "twitter_card")
          by decide),
        fun hs2 => absurd hs2 (show ¬("opengraph" = "schema") by decide)⟩
    · rw [mem_twitterCandidate hc]
      exact ⟨fun hs2 => absurd hs2 (show ¬("twitter_card" = "opengraph")
          by decide),
        fun _ => rfl,
        fun hs2 => absurd hs2 (show ¬("twitter_card" = "schema") by decide)⟩
    · rw [mem_schemaCandidate hc]
      exact ⟨fun hs2 => absurd hs2 (show ¬("schema" = "opengraph") by decide),
        fun hs2 => absurd hs2 (show ¬("schema" = "twitter_card") by decide),
        fun _ => rfl⟩

/-- Witness for C2: the concrete OpenGraph candidate for
`https://x.com/a.jpg` stores 80 = 55 (clamped base) + 25. -/
theorem C2_bonus_applied_once_witness :
    (Candidate.mk "https://x.com/a.jpg" 80 "opengraph").score =
      scoreImageRelevance
        (Candidate.mk "https://x.com/a.jpg" 80 "opengraph").url
        none "opengraph" "" + 25 :=
  (C2_bonus_applied_once_in_extractor.2 ⟨some "https://x.com/a.jpg", none, []⟩
    "https://p.com/q" (Candidate.mk "https://x.com/a.jpg" 80 "opengraph")
    (by decide)).1 rfl

/-- C2 counterexample: at `https://x.com/a.jpg` the scoring function
returns the same value (55) for the `opengraph` source method as for an
unrecognized one, not that value plus 25. -/
theorem C2_scorer_applies_no_bonus :
    scoreImageRelevance "https://x.com/a.jpg" none "opengraph" "" =
      scoreImageRelevance "https://x.com/a.jpg" none "unrecognized" "" ∧
    ¬(scoreImageRelevance "https://x.com/a.jpg" none "opengraph" "" =
      scoreImageRelevance "https://x.com/a.jpg" none "unrecognized" "" + 25) := by
  constructor
  · rfl
  · decide

/-- C3 counterexample: `https://site.com/assets/fb_pixel_tr.gif` is not
excluded by `_should_exclude_image_url` (no pattern matches: the regex
needs a literal `pixel?` or a `facebook.com` host), its score is 50 as a
BeautifulSoup candidate rather than 0, and as the only candidate it is
selected (not "no image") whenever size validation passes. -/
theorem C3_tracking_gif_not_excluded :
    shouldExcludeImageUrl "https://site.com/assets/fb_pixel_tr.gif" = false ∧
    scoreImageRelevance "https://site.com/assets/fb_pixel_tr.gif" none "soup" ""
      ≠ 0 ∧
    scrapeSelect (fun _ => true)
        [⟨"https://site.com/assets/fb_pixel_tr.gif", 50, "soup"⟩] ≠ none := by
  refine ⟨by decide, by decide, by decide⟩

/-- C3 (corrected).  What the code actually does with
`https://site.com/assets/fb_pixel_tr.gif`: the Filter keeps it, the
Scorer gives it 45 with no method prior and 50 as a `soup` candidate
(base 50 + 5 method prior - 5 for `.gif`), and — being at or above the
score floor 40 — it is selected by the full pipeline when it is the only
candidate and validation passes; only a failing validation yields "no
image". -/
theorem C3_tracking_gif_behavior :
    shouldExcludeImageUrl "https://site.com/assets/fb_pixel_tr.gif" = false ∧
    scoreImageRelevance "https://site.com/assets/fb_pixel_tr.gif" none "" ""
      = 45 ∧
    scoreImageRelevance "https://site.com/assets/fb_pixel_tr.gif" none "soup" ""
      = 50 ∧
    scrapeArticleImages [] []
        [⟨"https://site.com/assets/fb_pixel_tr.gif", 50, "soup"⟩]
        (fun _ => true) =
      some ⟨"https://site.com/assets/fb_pixel_tr.gif", 50, "soup"⟩ ∧
    scrapeArticleImages [] []
        [⟨"https://site.com/assets/fb_pixel_tr.gif", 50, "soup"⟩]
        (fun _ => false) = none := by
  refine ⟨by decide, by decide, by decide, by decide, by decide⟩

/-- C4 (confirmed).  The merge-by-URL step keeps exactly one entry per
distinct URL (the merged URLs are exactly the input URLs, without
duplicates), every retained entry is an input candidate, and it dominates
every input score for its URL — so with different scores for one URL the
higher one is retained. -/
theorem C4_merge_keeps_higher_score (l : List Candidate) :
    ((mergeByUrl l).map Candidate.url).Nodup ∧
    (∀ u, u ∈ l.map Candidate.url ↔ u ∈ (mergeByUrl l).map Candidate.url) ∧
    (∀ c, c ∈ mergeByUrl l → c ∈ l) ∧
    (∀ c c2, c ∈ mergeByUrl l → c2 ∈ l → c2.url = c.url →
      c2.score ≤ c.score) :=
  ⟨mergeByUrl_nodup l, fun u => (mergeByUrl_urls l u).symm,
   fun _ hc => mergeByUrl_subset hc,
   fun _ _ hc hc2 hu => mergeByUrl_max hc hc2 hu⟩

/-- Witness for C4: merging two entries for URL `u` with scores 30 and 70
retains the 70 entry, which dominates the 30 one. -/
theorem C4_merge_keeps_higher_score_witness :
    (Candidate.mk "u" 30 "a").score ≤ (Candidate.mk "u" 70 "b").score :=
  (C4_merge_keeps_higher_score
      [Candidate.mk "u" 30 "a", Candidate.mk "u" 70 "b"]).2.2.2
    (Candidate.mk "u" 70 "b") (Candidate.mk "u" 30 "a")
    (by decide) (by decide) (by decide)

/-- C5 (confirmed).  The selection walk over the deduplicated,
descending-sorted candidates returns a candidate only if it meets the
score floor and passes validation with everything ranked before it
failing a gate; an empty candidate list, or one in which every candidate
misses the floor or fails validation, yields `none` — a value, not an
exception. -/
theorem C5_selection_walk (val : String → Bool) (cands : List Candidate) :
    (∀ c, scrapeSelect val cands = some c →
      (MIN_ACCEPTABLE_SCORE ≤ c.score ∧ val c.url = true ∧ c ∈ cands) ∧
      ∃ pre post, sortDesc (mergeByUrl cands) = pre ++ c :: post ∧
        ∀ x ∈ pre, ¬(MIN_ACCEPTABLE_SCORE ≤ x.score ∧ val x.url = true)) ∧
    (sortDesc (mergeByUrl cands)).Pairwise (fun a b => b.score ≤ a.score) ∧
    (cands = [] → scrapeSelect val cands = none) ∧
    ((∀ c ∈ cands, c.score < MIN_ACCEPTABLE_SCORE ∨ val c.url = false) →
      scrapeSelect val cands = none) := by
  refine ⟨?_, sortDesc_pairwise _, ?_, ?_⟩
  · intro c h
    obtain ⟨⟨h1, h2⟩, pre, post, hL, hpre⟩ := selectFirst_eq_some h
    refine ⟨⟨h1, h2, ?_⟩, pre, post, hL, hpre⟩
    have hc : c ∈ sortDesc (mergeByUrl cands) := by
      rw [hL]
      exact List.mem_append_right _ (List.mem_cons_self _ _)
    exact mergeByUrl_subset (mem_sortDesc.mp hc)
  · rintro rfl
    rfl
  · intro hall
    apply selectFirst_eq_none
    intro x hx
    have hx' : x ∈ cands := mergeByUrl_subset (mem_sortDesc.mp hx)
    rintro ⟨hs, hv⟩
    rcases hall x hx' with h | h
    · exact absurd hs (not_le.mpr h)
    · rw [h] at hv
      cases hv

/-- Witness for C5: a sole candidate below the score floor yields `none`. -/
theorem C5_selection_walk_witness :
    scrapeSelect (fun _ => true) [Candidate.mk "u" 30 "a"] = none :=
  (C5_selection_walk (fun _ => true) [Candidate.mk "u" 30 "a"]).2.2.2
    (by decide)

/-- C6 (confirmed).  The fallback chain runs newspaper3k exactly when the
trafilatura best score is below 80 and BeautifulSoup exactly when the
best score after the first two strategies is below 70; in particular a
trafilatura best of at least 80 skips both, and a trafilatura best of 75
runs newspaper3k but skips BeautifulSoup. -/
theorem C6_chain_thresholds (t n s : List Candidate) :
    ((chainRun t n s).ranNewspaper = true ↔ bestScore t < 80) ∧
    ((chainRun t n s).ranSoup = true ↔
      bestScore (if bestScore t < 80 then t ++ n else t) < 70) ∧
    (80 ≤ bestScore t → (chainRun t n s).ranNewspaper = false ∧
      (chainRun t n s).ranSoup = false) ∧
    (bestScore t = 75 → (chainRun t n s).ranNewspaper = true ∧
      (chainRun t n s).ranSoup = false) := by
  refine ⟨by simp [chainRun], by simp [chainRun], ?_, ?_⟩
  · intro h
    constructor
    · simp only [chainRun, decide_eq_false_iff_not]
      omega
    · simp only [chainRun, decide_eq_false_iff_not]
      rw [if_neg (by omega)]
      omega
  · intro h
    constructor
    · simp only [chainRun, decide_eq_true_eq]
      omega
    · simp only [chainRun, decide_eq_false_iff_not]
      rw [if_pos (by omega)]
      cases t with
      | nil => exact absurd h (by decide)
      | cons c cs =>
        have hmono := bestScore_le_append c cs n
        omega

/-- Witness for C6: with a best trafilatura score of exactly 75,
newspaper3k runs and BeautifulSoup is skipped. -/
theorem C6_chain_thresholds_witness :
    (chainRun [Candidate.mk "u" 75 "m"] [Candidate.mk "v" 10 "n"]
        [Candidate.mk "w" 10 "s"]).ranNewspaper = true ∧
    (chainRun [Candidate.mk "u" 75 "m"] [Candidate.mk "v" 10 "n"]
        [Candidate.mk "w" 10 "s"]).ranSoup = false :=
  (C6_chain_thresholds [Candidate.mk "u" 75 "m"] [Candidate.mk "v" 10 "n"]
    [Candidate.mk "w" 10 "s"]).2.2.2 (by decide)

/-- C7 (confirmed).  The validator rejects only for a content-length over
10 MB or decoded dimensions under 100 px; a failing HEAD accepts, and
when the size gate does not reject, an undecodable prefix or a failing
GET accepts as well. -/
theorem C7_validator_defaults_to_accept :
    (∀ (h : HeadResult) (g : GetResult), validateImageSize h g = false →
      (∃ n, h = .ok (some n) ∧ maxFileSizeBytes < n) ∨
      (∃ w ht, g = .ok (some (w, ht)) ∧ (w < 100 ∨ ht < 100))) ∧
    (∀ g, validateImageSize .fail g = true) ∧
    (∀ (h : HeadResult) (g : GetResult),
      ¬(∃ n, h = .ok (some n) ∧ maxFileSizeBytes < n) →
      (g = .fail ∨ g = .ok none) → validateImageSize h g = true) := by
  refine ⟨?_, fun g => rfl, ?_⟩
  · intro h g hv
    cases h with
    | fail => cases hv
    | ok cl =>
      cases cl with
      | some n =>
        by_cases hn : maxFileSizeBytes < n
        · exact Or.inl ⟨n, rfl, hn⟩
        · simp only [validateImageSize, if_neg hn] at hv
          cases g with
          | fail => cases hv
          | ok dims =>
            cases dims with
            | none => cases hv
            | some wh =>
              obtain ⟨w, ht⟩ := wh
              simp only [validateDims] at hv
              split_ifs at hv with hd
              exact Or.inr ⟨w, ht, rfl, hd⟩
      | none =>
        cases g with
        | fail => cases hv
        | ok dims =>
          cases dims with
          | none => cases hv
          | some wh =>
            obtain ⟨w, ht⟩ := wh
            simp only [validateImageSize, validateDims] at hv
            split_ifs at hv with hd
            exact Or.inr ⟨w, ht, rfl, hd⟩
  · intro h g hn hg
    cases h with
    | fail => rfl
    | ok cl =>
      cases cl with
      | some n =>
        have hn' : ¬(maxFileSizeBytes < n) := fun hlt => hn ⟨n, rfl, hlt⟩
        rcases hg with rfl | rfl <;>
          simp [validateImageSize, validateDims, if_neg hn']
      | none =>
        rcases hg with rfl | rfl <;> rfl

/-- Witness for C7: a 20 MB content-length is rejected for being over the
size cap (paired with small decoded dimensions). -/
theorem C7_validator_defaults_to_accept_witness :
    (∃ n, HeadResult.ok (some 20971520) = HeadResult.ok (some n) ∧
      maxFileSizeBytes < n) ∨
    (∃ w ht, GetResult.ok (some (50, 400)) = GetResult.ok (some (w, ht)) ∧
      (w < 100 ∨ ht < 100)) :=
  C7_validator_defaults_to_accept.1 (HeadResult.ok (some 20971520))
    (GetResult.ok (some (50, 400))) (by decide)

/-- C8 (confirmed).  For modes RGBA, LA and P the normalizer composites
onto the opaque white background, so a fully transparent pixel becomes
pure white; an image already in RGB is re-encoded with its pixels
untouched. -/
theorem C8_transparent_becomes_white :
    (∀ (img : DecodedImage) (x y : Nat),
      (img.mode = "RGBA" ∨ img.mode = "LA" ∨ img.mode = "P") →
      (img.px x y).a = 0 → normalizePx img x y = (255, 255, 255)) ∧
    (∀ (img : DecodedImage) (x y : Nat), img.mode = "RGB" →
      normalizePx img x y =
        ((img.px x y).r, (img.px x y).g, (img.px x y).b)) := by
  constructor
  · intro img x y hm ha
    simp only [normalizePx, if_pos hm]
    rw [ha, pilBlend_zero_mask, pilBlend_zero_mask, pilBlend_zero_mask]
  · intro img x y hm
    have hne : ¬(img.mode = "RGBA" ∨ img.mode = "LA" ∨ img.mode = "P") := by
      rw [hm]
      rintro (h | h | h) <;> exact absurd h (by decide)
    simp only [normalizePx, if_neg hne]

/-- Witness for C8: a fully transparent RGBA pixel normalizes to white. -/
theorem C8_transparent_becomes_white_witness :
    normalizePx ⟨"RGBA", fun _ _ => ⟨10, 20, 30, 0⟩⟩ 1 2 = (255, 255, 255) :=
  C8_transparent_becomes_white.1 ⟨"RGBA", fun _ _ => ⟨10, 20, 30, 0⟩⟩ 1 2
    (Or.inl rfl) rfl

/-- C9 (confirmed).  Scorer and Selector are pure functions of their
inputs: equal inputs give equal score and equal selection; moreover the
sort underlying selection is stable (each score class keeps its
first-seen order) and descending, so ties are broken deterministically
by input order. -/
theorem C9_deterministic_scoring_and_selection :
    (∀ (u1 u2 : String) (t1 t2 : Option ImgTag) (m1 m2 a1 a2 : String),
      u1 = u2 → t1 = t2 → m1 = m2 → a1 = a2 →
      scoreImageRelevance u1 t1 m1 a1 = scoreImageRelevance u2 t2 m2 a2) ∧
    (∀ (val1 val2 : String → Bool) (l1 l2 : List Candidate),
      val1 = val2 → l1 = l2 → scrapeSelect val1 l1 = scrapeSelect val2 l2) ∧
    (∀ (l : List Candidate) (s : Int),
      (sortDesc l).filter (fun c => c.score == s) =
        l.filter (fun c => c.score == s)) ∧
    (∀ l : List Candidate,
      (sortDesc l).Pairwise (fun a b => b.score ≤ a.score)) := by
  refine ⟨?_, ?_, ?_, sortDesc_pairwise⟩
  · intro u1 u2 t1 t2 m1 m2 a1 a2 hu ht hm ha
    rw [hu, ht, hm, ha]
  · intro v1 v2 l1 l2 hv hl
    rw [hv, hl]
  · intro l s
    exact sortDesc_filter s l

/-- Witness for C9: two identical scorer calls at a concrete URL agree. -/
theorem C9_deterministic_witness :
    scoreImageRelevance "https://a.com/x.jpg" none "soup" "" =
      scoreImageRelevance "https://a.com/x.jpg" none "soup" "" :=
  C9_deterministic_scoring_and_selection.1 "https://a.com/x.jpg"
    "https://a.com/x.jpg" none none "soup" "soup" "" "" rfl rfl rfl rfl

/-- C10 (confirmed).  Appending a duplicate URL whose score does not
exceed the retained entry's (equality included) leaves the merged set
unchanged — the dict update is guarded by a strict comparison, so the
first-seen entry keeps all its fields. -/
theorem C10_merge_tie_keeps_first (l : List Candidate) (c x : Candidate)
    (hx : x ∈ mergeByUrl l) (hu : x.url = c.url) (hs : c.score ≤ x.score) :
    mergeByUrl (l ++ [c]) = mergeByUrl l := by
  show (l ++ [c]).foldl (fun a c => insertCand c a) [] = _
  rw [List.foldl_append]
  simp only [List.foldl_cons, List.foldl_nil]
  exact insertCand_eq_self (mergeByUrl_nodup l) hx hu hs

/-- Witness for C10: a later duplicate of URL `u` with an equal score
does not replace the first-seen entry (its source field included). -/
theorem C10_merge_tie_keeps_first_witness :
    mergeByUrl ([Candidate.mk "u" 50 "first"] ++ [Candidate.mk "u" 50 "second"])
      = mergeByUrl [Candidate.mk "u" 50 "first"] :=
  C10_merge_tie_keeps_first [Candidate.mk "u" 50 "first"]
    (Candidate.mk "u" 50 "second") (Candidate.mk "u" 50 "first")
    (by decide) (by decide) (by decide)

